import Mathlib

/-!
Verification of `cli_typer.py` (terminal typing-practice tool).

Text is modelled as `List Char`; machine integers of the source are `Nat`
(Python counters never go below zero in the relevant code because every
decrement is written `max(0, x - 1)`, which is exactly truncated `Nat`
subtraction), and the floating-point clock readings are modelled as `Nat`
timestamps handed to each event, with the derived metrics computed in `ℚ`.
-/

namespace CliTyper

/-! ## Text wrapping (`wrap_text_to_lines`, lines 114-138) -/

/-- Python `text.split(" ")`: split on every single space character, keeping
empty pieces (so `"a  b"` yields `["a", "", "b"]` and `""` yields `[""]`). -/
def splitOnSpace : List Char → List (List Char)
  | [] => [[]]
  | c :: cs =>
    if c = ' ' then [] :: splitOnSpace cs
    else
      match splitOnSpace cs with
      | [] => [[c]]
      | w :: ws => (c :: w) :: ws

/-- Python `" ".join(pieces)`. -/
def joinSp : List (List Char) → List Char
  | [] => []
  | [w] => w
  | w :: ws => w ++ ' ' :: joinSp ws

/-- The `while len(w) > width` loop of `wrap_text_to_lines` (lines 132-134)
that hard-splits an oversized word into `width`-sized chunks, returning the
emitted chunks and the remainder that continues as the new current line.
The `fuel` argument only bounds the number of iterations (`w.length`
suffices, since every iteration removes `width ≥ 1` characters); the extra
`0 < width` conjunct in the guard is redundant at every call site because
`wrap_text_to_lines` returns early when `width ≤ 0`. -/
def hardSplitF (width : Nat) : Nat → List Char → List (List Char) × List Char
  | 0, w => ([], w)
  | fuel + 1, w =>
    if 0 < width ∧ width < w.length then
      let p := hardSplitF width fuel (w.drop width)
      ((w.take width) :: p.1, p.2)
    else ([], w)

def hardSplit (width : Nat) (w : List Char) : List (List Char) × List Char :=
  hardSplitF width w.length w

/-- One iteration of the `for w in words` loop of `wrap_text_to_lines`
(lines 120-135); the state is the pair (closed lines, current line). -/
def wrapStep (width : Nat) (st : List (List Char) × List Char) (w : List Char) :
    List (List Char) × List Char :=
  let trial := if st.2 = [] then w else st.2 ++ ' ' :: w
  if trial.length ≤ width then (st.1, trial)
  else
    let ls := if st.2 = [] then st.1 else st.1 ++ [st.2]
    let p := hardSplit width w
    (ls ++ p.1, p.2)

/-- The final `if line: lines.append(line)` (lines 136-137). -/
def finishLines (st : List (List Char) × List Char) : List (List Char) :=
  if st.2 = [] then st.1 else st.1 ++ [st.2]

/-- `wrap_text_to_lines(text, width)` (lines 114-138). -/
def wrap_text_to_lines (text : List Char) (width : Int) : List (List Char) :=
  if width ≤ 0 then [text]
  else finishLines ((splitOnSpace text).foldl (wrapStep width.toNat) ([], []))

/-! ## The flat-index → (line, column) table (`render_screen`, lines 243-252;
`draw_text` builds the identical table at lines 160-173) -/

/-- The `for li, line in enumerate(lines)` loop building `flat_to_line`:
characters of each wrapped line receive consecutive table entries; a
following inter-word space receives the entry `(li, len(line))` only when it
exists in the text at the running index `idx` and the line is not full
(`len(line) < max_text_width`); when the space exists but the line is full,
no entry is appended and `idx` is not advanced. -/
def flatToLineAux (text : List Char) (width : Nat) :
    List (List Char) → Nat → Nat → List (Nat × Nat)
  | [], _, _ => []
  | line :: rest, li, idx =>
    ((List.range line.length).map fun ci => (li, ci)) ++
    (if idx + line.length < text.length ∧
        text.getD (idx + line.length) 'a' = ' ' ∧ line.length < width then
      (li, line.length) :: flatToLineAux text width rest (li + 1) (idx + line.length + 1)
    else flatToLineAux text width rest (li + 1) (idx + line.length))

/-- The `flat_to_line` table of `render_screen` for a given viewport text
width (`max_text_width` in the source). -/
def flat_to_line (text : List Char) (width : Int) : List (Nat × Nat) :=
  flatToLineAux text width.toNat (wrap_text_to_lines text width) 0 0

/-! ## Stats (lines 61-97) -/

/-- `Stats` (lines 61-97).  Timestamps are `Nat` clock readings; the counters
are `Nat` because the source only ever decrements them through
`max(0, x - 1)`, which is truncated subtraction. -/
structure Stats where
  started : Option Nat := none
  ended : Option Nat := none
  typed : Nat := 0
  correct : Nat := 0
  mistakes : Nat := 0
deriving DecidableEq, Repr

/-- `Stats.start` (lines 69-71); `now` is the clock reading `time.time()`. -/
def Stats.start (s : Stats) (now : Nat) : Stats :=
  if s.started = none then { s with started := some now } else s

/-- `Stats.stop` (lines 73-75). -/
def Stats.stop (s : Stats) (now : Nat) : Stats :=
  if s.ended = none then { s with ended := some now } else s

/-- `Stats.seconds_elapsed` (lines 77-82); truncated `Nat` subtraction plays
the role of `max(0.0, end - start)`. -/
def Stats.seconds_elapsed (s : Stats) (now : Nat) : Nat :=
  match s.started with
  | none => 0
  | some st => s.ended.getD now - st

/-- `Stats.minutes_elapsed` (lines 84-86). -/
def Stats.minutes_elapsed (s : Stats) (now : Nat) : ℚ :=
  (s.seconds_elapsed now : ℚ) / 60

/-- `Stats.accuracy` (lines 88-90). -/
def Stats.accuracy (s : Stats) : ℚ :=
  if s.typed = 0 then 0 else (s.correct : ℚ) / (s.typed : ℚ)

/-- `Stats.raw_wpm` (lines 92-97). -/
def Stats.raw_wpm (s : Stats) (now : Nat) : ℚ :=
  if s.minutes_elapsed now ≤ 0 then 0
  else ((s.correct : ℚ) / 5) / s.minutes_elapsed now

/-! ## Configuration and word source (lines 51-58, 100-111) -/

inductive Mode
  | time
  | words
deriving DecidableEq, Repr

/-- `Config` (lines 51-58). -/
structure Config where
  mode : Mode
  seconds : Nat
  words : Nat
  numbers : Bool
  punctuation : Bool
  seed : Option Int
deriving DecidableEq, Repr

/-- `DEFAULT_WORDS` (lines 20-33): the concatenated word string of the
source, split on whitespace (the literal is single-space separated with no
leading or trailing space, so Python `str.split()` coincides with
`splitOnSpace` here). -/
def DEFAULT_WORDS : List (List Char) :=
  splitOnSpace
    ("the of and to in is you that it he was for on are as with his they I at be this have from or one had by word but not what all were we when your can said there use an each which she do how their if"
    ++ " will up other about out many then them these so some her would make like him into time has look two more write go see number no way could people my than first water been call who oil its now find"
    ++ " long down day did get come made may part over new sound take only little work know place year live me back give most very after thing our just name good sentence man think say great where help through"
    ++ " much before line right too means old any same tell boy follow came want show also around form three small set put end does another well large must big even such because turn here why ask went men read"
    ++ " need land different home us move try kind hand picture again change off play spell air away animal house point page letter mother answer found study still learn should America world high every near add food"
    ++ " between own below country plant last school father keep tree never start city earth eye light thought head under story saw left don\x27t few while along might close something seem next hard open example begin"
    ++ " life always those both paper together got group often run important until children side feet car mile night walk white sea began grow took river four carry state once book hear stop without second late miss"
    ++ " idea enough eat face watch far Indian real almost let above girl sometimes mountain cut young talk soon list song being leave family it\x27s body music color stand sun questions fish area mark dog horse birds"
    ++ " problem complete room knew since ever piece told usually didn’t friends easy heard order red door sure become top ship across today during short better best however low hours black products happened whole measure remember"
    ++ " early waves reached listen wind rock space covered fast several hold himself toward five step morning passed vowel true hundred against pattern numeral table north slowly money map farm pulled draw voice seen cold cried"
    ++ " plan notice south sing war ground fall king town I\x27ll unit figure certain field travel wood fire upon done English road halt ten fly gave box finally waited correct oh quickly person became shown minutes").toList

/-- `NUMBERS` (line 36): `list("0123456789")`, ten one-character tokens. -/
def NUMBERS : List (List Char) :=
  "0123456789".toList.map fun c => [c]

/-- `PUNCT` (line 37): the punctuation tokens (each one character), with the
brace and quote characters written as escapes. -/
def PUNCT : List (List Char) :=
  splitOnSpace ", . ! ? : ; \x27 \x22 - ( ) [ ] \x7b \x7d / \\".toList

/-- Modelled from the spec: the pseudo-random generator `random.Random` is
the Python standard library, not part of this repository.  Per §4.1 it is a
pseudo-random stream fully determined by its seed (with a time-derived seed
when none is configured), the same seed reproducing the same sequence.  We
model the stream as a 64-bit linear congruential generator standing in for
the Mersenne Twister; the `entropy` argument of `PRNG.ofSeed` stands for
the ambient time consumed when the configured seed is absent. -/
structure PRNG where
  state : Nat
deriving DecidableEq, Repr

def PRNG.ofSeed (entropy : Nat) : Option Int → PRNG
  | some s => ⟨(s % (2 ^ 64 : Int)).toNat⟩
  | none => ⟨entropy % 2 ^ 64⟩

def PRNG.next (g : PRNG) : Nat × PRNG :=
  let s := (g.state * 6364136223846793005 + 1442695040888963407) % 2 ^ 64
  (s, ⟨s⟩)

/-- Modelled from the spec: `random.Random.choice(seq)` draws one element of
`seq` uniformly, advancing the stream. -/
def PRNG.choice (g : PRNG) (xs : List (List Char)) : List Char × PRNG :=
  let p := g.next
  (xs.getD (p.1 % xs.length) [], p.2)

/-- `WordSource` (lines 100-108): the active vocabulary plus the seeded
generator state. -/
structure WordSource where
  words : List (List Char)
  rng : PRNG
deriving DecidableEq, Repr

/-- `WordSource.__init__` (lines 101-108); `entropy` models the ambient time
that seeds `random.Random(None)` when no seed is configured. -/
def mkWordSource (entropy : Nat) (config : Config) : WordSource :=
  let base := DEFAULT_WORDS
    ++ (if config.numbers then NUMBERS else [])
    ++ (if config.punctuation then PUNCT else [])
  { words := base, rng := PRNG.ofSeed entropy config.seed }

def WordSource.generateAux (pool : List (List Char)) : PRNG → Nat → List (List Char) × PRNG
  | g, 0 => ([], g)
  | g, n + 1 =>
    let p := g.choice pool
    let r := WordSource.generateAux pool p.2 n
    (p.1 :: r.1, r.2)

/-- `WordSource.generate` (lines 110-111): `count` draws with replacement,
advancing the generator state of the instance. -/
def WordSource.generate (ws : WordSource) (count : Nat) : List (List Char) × WordSource :=
  let r := WordSource.generateAux ws.words ws.rng count
  (r.1, { ws with rng := r.2 })

/-- `build_text` (lines 141-151).  The float expression
`int(max(50, (seconds / 60.0) * 300))` equals `max 50 (5 * seconds)` for the
integer inputs involved. -/
def build_text (source : WordSource) (config : Config) : List Char × WordSource :=
  let count := match config.mode with
    | Mode.words => max 1 config.words
    | Mode.time => max 50 (5 * config.seconds)
  let r := source.generate count
  (joinSp r.1, r.2)

/-! ## The typing session state machine (`typing_session`, lines 305-421)

The event loop of `typing_session` is modelled as a step function on an
explicit session state.  One loop iteration processes one key event; the
events the claims concern are printable characters (with enter already
mapped to space, lines 347-349), the two deliveries of backspace (as the
string `"\x7f"`/`"\b"`, lines 350-362, and as a curses key code, lines
384-394) and ESC quit (lines 339-341).  Once the loop has been left —
either by ESC or because the end-of-iteration finished check fired and the
post-completion prompt loop (lines 401-421) took over — no further event
reaches the state updates; this is the `done` flag. -/

inductive Event
  /-- A character that passed the `ch.isprintable() or ch == " "` filter
  (line 365), with enter already mapped to space; `now` is the clock
  reading during the iteration. -/
  | printable (c : Char) (now : Nat)
  /-- Backspace delivered as a string (lines 350-362); this branch ends in
  `continue`, skipping the end-of-iteration finished check. -/
  | backspace (now : Nat)
  /-- Backspace delivered as a curses key code (lines 384-394); this branch
  falls through to the finished check. -/
  | backspaceKey (now : Nat)
  /-- ESC (lines 339-341). -/
  | quit (now : Nat)
deriving DecidableEq, Repr

structure SessionState where
  cfg : Config
  text : List Char
  typedLog : List Char
  stats : Stats
  /-- Set once `typing_session` has left its main event loop. -/
  done : Bool
deriving DecidableEq, Repr

/-- The session state just before the event loop (lines 320-332): target
text built, nothing typed. -/
def initSession (cfg : Config) (text : List Char) : SessionState :=
  { cfg := cfg, text := text, typedLog := [], stats := {}, done := false }

/-- `finished()` (lines 326-330). -/
def finishedAt (s : SessionState) (now : Nat) : Bool :=
  match s.cfg.mode with
  | Mode.time =>
    s.stats.started.isSome && decide (s.cfg.seconds ≤ s.stats.seconds_elapsed now)
  | Mode.words => decide (s.text.length ≤ s.typedLog.length)

/-- Lines 366-367: for characters passing the printable-or-space filter,
`ch.strip() != ""` is exactly `c ≠ ' '` (space is the only printable
character that strips to the empty string). -/
def startUpdate (s : SessionState) (c : Char) (now : Nat) : SessionState :=
  if c ≠ ' ' then { s with stats := s.stats.start now } else s

/-- Lines 369-376: append the character and update the counters when the
typed log has not reached the end of the target text. -/
def pushUpdate (s : SessionState) (c : Char) : SessionState :=
  if s.typedLog.length < s.text.length then
    let target_ch := s.text.getD s.typedLog.length ' '
    { s with
      typedLog := s.typedLog ++ [c]
      stats := { s.stats with
        typed := s.stats.typed + 1
        correct := if c = target_ch then s.stats.correct + 1 else s.stats.correct
        mistakes := if c = target_ch then s.stats.mistakes else s.stats.mistakes + 1 } }
  else s

/-- Line 380: the chunk appended to the target text in time mode,
`" " + " ".join(WordSource(config).generate(50))`, drawn from a freshly
constructed `WordSource`; `entropy` models the ambient time that would seed
`random.Random(None)`. -/
def extChunk (entropy : Nat) (cfg : Config) : List Char :=
  ' ' :: joinSp ((mkWordSource entropy cfg).generate 50).1

/-- Lines 377-380: in time mode, extend the buffer when typing has reached
its end and the session is not yet finished by elapsed time. -/
def extendUpdate (s : SessionState) (now : Nat) : SessionState :=
  if s.cfg.mode = Mode.time ∧ s.text.length ≤ s.typedLog.length ∧
      finishedAt s now = false then
    { s with text := s.text ++ extChunk now s.cfg }
  else s

/-- Lines 396-400: the end-of-iteration completion check; on completion the
session stops its clock and leaves the event loop. -/
def finishUpdate (s : SessionState) (now : Nat) : SessionState :=
  if finishedAt s now then { s with stats := s.stats.stop now, done := true } else s

/-- Lines 350-359 (and identically lines 384-392): undo the stats for the
last typed character and pop it; `max(0, x - 1)` is `Nat` subtraction. -/
def backspaceUpdate (s : SessionState) : SessionState :=
  if s.typedLog = [] then s
  else
    let last_i := s.typedLog.length - 1
    let st :=
      if s.typedLog.getD last_i ' ' = s.text.getD last_i ' ' then
        { s.stats with correct := s.stats.correct - 1 }
      else
        { s.stats with mistakes := s.stats.mistakes - 1 }
    { s with stats := { st with typed := st.typed - 1 }, typedLog := s.typedLog.dropLast }

/-- One iteration of the `typing_session` event loop (lines 334-398).  The
state machine itself is a total function: no event can fail. -/
def typingSessionStep (s : SessionState) : Event → SessionState
  | Event.printable c now =>
    if s.done then s
    else finishUpdate (extendUpdate (pushUpdate (startUpdate s c now) c) now) now
  | Event.backspace _ =>
    if s.done then s else backspaceUpdate s
  | Event.backspaceKey now =>
    if s.done then s else finishUpdate (backspaceUpdate s) now
  | Event.quit now =>
    if s.done then s
    else { s with stats := s.stats.stop now, done := true }

/-- A whole session: the events applied in order from the initial state. -/
def runSession (cfg : Config) (text : List Char) (events : List Event) : SessionState :=
  events.foldl typingSessionStep (initSession cfg text)

/-- Number of typed positions that match the target: the count of indices
`i < len(typed)` with `typed[i] == text[i]`. -/
def matchCount (log text : List Char) : Nat :=
  (log.zip text).countP fun p => p.1 == p.2

/-- The counter invariant carried by every session state: `typed` counts the
log, `correct` counts the matching positions, `mistakes` the rest, and the
log never outruns the target text. -/
def CountersOk (s : SessionState) : Prop :=
  s.stats.typed = s.typedLog.length ∧
  s.stats.correct = matchCount s.typedLog s.text ∧
  s.stats.mistakes = s.typedLog.length - matchCount s.typedLog s.text ∧
  s.typedLog.length ≤ s.text.length

/-- While the event loop is running, the typed log is strictly short of the
target text (words mode ends the session at the boundary; time mode extends
the buffer there). -/
def LoopRoom (s : SessionState) : Prop :=
  s.done = false → s.typedLog.length < s.text.length

/-- The session states reachable by the program: the initial state for some
non-empty target text (`build_text` joins at least one non-empty word), and
anything an event step produces from a reachable state. -/
inductive Reachable (cfg : Config) : SessionState → Prop
  | init (text : List Char) (h : text ≠ []) : Reachable cfg (initSession cfg text)
  | step (s : SessionState) (e : Event) :
      Reachable cfg s → Reachable cfg (typingSessionStep s e)

/-! ## The re-join predicate for the wrap reconstruction property (§8)

`rejoins text lines` checks that walking `lines` in order reproduces
`text` exactly, except that a (possibly empty) run of spaces may be elided
before each line and after the last one: no character is invented and none
is duplicated. -/

def rejoins : List Char → List (List Char) → Bool
  | text, [] => text.all fun c => c == ' '
  | text, l :: ls =>
    let t := text.dropWhile fun c => c == ' '
    l.isPrefixOf t && rejoins (t.drop l.length) ls

/-- A line never begins with a space (wrapped lines start with a word
character); the empty list satisfies it vacuously. -/
def headNotSpace : List Char → Prop
  | [] => True
  | c :: _ => c ≠ ' '

/-- The text contributed by a list of words each preceded by its separator
space; `splitOnSpace` is its inverse in the sense of
`tailText_splitOnSpace`. -/
def tailText : List (List Char) → List Char
  | [] => []
  | w :: ws => ' ' :: (w ++ tailText ws)

/-! ## Concrete instances used by scenario claims -/

/-- A words-mode configuration as in the §8 scenarios. -/
def cfgWordsEx : Config :=
  { mode := Mode.words, seconds := 60, words := 5,
    numbers := false, punctuation := false, seed := some 1 }

/-- A time-mode configuration with a fixed seed. -/
def cfgTimeEx : Config :=
  { mode := Mode.time, seconds := 60, words := 50,
    numbers := false, punctuation := false, seed := some 1 }

/-- The §8 typing scenario: `"abc"` against target `"abX"`, then one
backspace, then `"X"`, with strictly increasing clock readings. -/
def scenarioC2 : SessionState :=
  runSession cfgWordsEx "abX".toList
    [Event.printable 'a' 1, Event.printable 'b' 2, Event.printable 'c' 3,
     Event.backspace 4, Event.printable 'X' 5]

/-! # Theorems

## Splitting and joining -/

theorem splitOnSpace_ne_nil (t : List Char) : splitOnSpace t ≠ [] := by
  cases t with
  | nil => simp [splitOnSpace]
  | cons c cs =>
    simp only [splitOnSpace]
    split
    · simp
    · split <;> simp

theorem splitOnSpace_no_space (t : List Char) : ∀ w ∈ splitOnSpace t, ' ' ∉ w := by
  induction t with
  | nil =>
    intro w hw
    simp [splitOnSpace] at hw
    simp [hw]
  | cons c cs ih =>
    intro w hw
    simp only [splitOnSpace] at hw
    by_cases hc : c = ' '
    · rw [if_pos hc] at hw
      rcases List.mem_cons.mp hw with h | h
      · simp [h]
      · exact ih w h
    · rw [if_neg hc] at hw
      cases hs : splitOnSpace cs with
      | nil => exact absurd hs (splitOnSpace_ne_nil cs)
      | cons w0 ws =>
        rw [hs] at hw
        rcases List.mem_cons.mp hw with h | h
        · subst h
          intro hmem
          rcases List.mem_cons.mp hmem with h1 | h1
          · exact hc h1.symm
          · exact ih w0 (hs ▸ List.mem_cons_self w0 ws) h1
        · exact ih w (by rw [hs]; exact List.mem_cons_of_mem w0 h)

theorem tailText_splitOnSpace (t : List Char) : tailText (splitOnSpace t) = ' ' :: t := by
  induction t with
  | nil => rfl
  | cons c cs ih =>
    simp only [splitOnSpace]
    by_cases hc : c = ' '
    · rw [if_pos hc]
      simp only [tailText, List.nil_append, ih, hc]
    · rw [if_neg hc]
      cases hs : splitOnSpace cs with
      | nil => exact absurd hs (splitOnSpace_ne_nil cs)
      | cons w0 ws =>
        rw [hs] at ih
        simp only [tailText, List.cons.injEq, true_and] at ih ⊢
        rw [List.cons_append, ih]

/-! ## Hard-split properties -/

theorem hardSplitF_spec (width : Nat) :
    ∀ fuel w, w.length ≤ fuel → 0 < width →
      (hardSplitF width fuel w).1.foldr (· ++ ·) (hardSplitF width fuel w).2 = w ∧
      (∀ ch ∈ (hardSplitF width fuel w).1, ch.length ≤ width ∧ ch ≠ []) ∧
      (hardSplitF width fuel w).2.length ≤ width ∧
      (∀ x ∈ (hardSplitF width fuel w).2, x ∈ w) ∧
      (∀ ch ∈ (hardSplitF width fuel w).1, ∀ x ∈ ch, x ∈ w) := by
  intro fuel
  induction fuel with
  | zero =>
    intro w hw hwid
    have hnil : w = [] := List.length_eq_zero.mp (Nat.le_zero.mp hw)
    subst hnil
    simp [hardSplitF]
  | succ fuel ih =>
    intro w hw hwid
    by_cases hcond : 0 < width ∧ width < w.length
    · have hdrop : (w.drop width).length ≤ fuel := by
        rw [List.length_drop]
        omega
      obtain ⟨ha, hb, hc, hd, he⟩ := ih (w.drop width) hdrop hwid
      simp only [hardSplitF, if_pos hcond] at *
      refine ⟨?_, ?_, hc, ?_, ?_⟩
      · simp only [List.foldr_cons, ha, List.take_append_drop]
      · intro ch hch
        rcases List.mem_cons.mp hch with h | h
        · subst h
          constructor
          · exact le_trans (List.length_take_le width w) (le_refl width)
          · have : (w.take width).length = width := by
              rw [List.length_take]
              omega
            intro hempty
            rw [hempty] at this
            simp at this
            omega
        · exact hb ch h
      · intro x hx
        exact List.drop_subset width w (hd x hx)
      · intro ch hch x hx
        rcases List.mem_cons.mp hch with h | h
        · subst h
          exact List.take_subset width w hx
        · exact List.drop_subset width w (he ch h x hx)
    · simp only [hardSplitF, if_neg hcond]
      refine ⟨rfl, by simp, ?_, by simp, by simp⟩
      simp only [not_and, not_lt] at hcond
      exact hcond hwid

theorem hardSplit_spec (width : Nat) (w : List Char) (hwid : 0 < width) :
    (hardSplit width w).1.foldr (· ++ ·) (hardSplit width w).2 = w ∧
    (∀ ch ∈ (hardSplit width w).1, ch.length ≤ width ∧ ch ≠ []) ∧
    (hardSplit width w).2.length ≤ width ∧
    (∀ x ∈ (hardSplit width w).2, x ∈ w) ∧
    (∀ ch ∈ (hardSplit width w).1, ∀ x ∈ ch, x ∈ w) :=
  hardSplitF_spec width w.length w (le_refl _) hwid

/-! ## Factoring the wrap fold over the accumulated lines -/

theorem wrapStep_factor (width : Nat) (st : List (List Char) × List Char) (w : List Char) :
    wrapStep width st w =
      (st.1 ++ (wrapStep width ([], st.2) w).1, (wrapStep width ([], st.2) w).2) := by
  simp only [wrapStep]
  by_cases hfit : (if st.2 = [] then w else st.2 ++ ' ' :: w).length ≤ width
  · rw [if_pos hfit, if_pos hfit]
    simp
  · rw [if_neg hfit, if_neg hfit]
    by_cases hl : st.2 = []
    · simp [hl, List.append_assoc]
    · simp [hl, List.append_assoc]

theorem foldl_wrapStep_factor (width : Nat) (ws : List (List Char)) :
    ∀ ls l, ws.foldl (wrapStep width) (ls, l) =
      (ls ++ (ws.foldl (wrapStep width) ([], l)).1,
        (ws.foldl (wrapStep width) ([], l)).2) := by
  induction ws with
  | nil => simp
  | cons w ws ih =>
    intro ls l
    simp only [List.foldl_cons]
    rw [wrapStep_factor width (ls, l) w, wrapStep_factor width ([], l) w]
    simp only [List.nil_append]
    rw [ih ((wrapStep width ([], l) w).1) ((wrapStep width ([], l) w).2),
      ih (ls ++ (wrapStep width ([], l) w).1) ((wrapStep width ([], l) w).2)]
    simp [List.append_assoc]

theorem finishLines_factor (a b : List (List Char)) (l : List Char) :
    finishLines (a ++ b, l) = a ++ finishLines (b, l) := by
  simp only [finishLines]
  by_cases hl : l = []
  · simp [hl]
  · simp [hl, List.append_assoc]

/-! ## Peeling lemmas for the re-join predicate -/

theorem isPrefixOf_append_self (l t : List Char) : l.isPrefixOf (l ++ t) = true := by
  induction l with
  | nil => simp [List.isPrefixOf]
  | cons c l ih => simp [List.isPrefixOf, ih]

theorem rejoins_cons_space (t : List Char) (L : List (List Char)) :
    rejoins (' ' :: t) L = rejoins t L := by
  cases L with
  | nil => simp [rejoins]
  | cons l ls => simp [rejoins, List.dropWhile_cons]

theorem rejoins_peel (l t : List Char) (L : List (List Char)) (hne : l ≠ [])
    (hhead : headNotSpace l) : rejoins (l ++ t) (l :: L) = rejoins t L := by
  obtain ⟨c, l', rfl⟩ := List.exists_cons_of_ne_nil hne
  have hc : (c == ' ') = false := by
    simp only [headNotSpace] at hhead
    simp [hhead]
  simp only [rejoins, List.cons_append, List.dropWhile_cons, hc]
  simp only [Bool.false_eq_true, if_false]
  rw [show c :: (l' ++ t) = (c :: l') ++ t from rfl, isPrefixOf_append_self,
    List.drop_left]
  simp

theorem headNotSpace_of_no_space (l : List Char) (h : ' ' ∉ l) : headNotSpace l := by
  cases l with
  | nil => trivial
  | cons c cs =>
    simp only [headNotSpace]
    intro hc
    exact h (hc ▸ List.mem_cons_self c cs)

theorem headNotSpace_append (l t : List Char) (h : headNotSpace l) (hne : l ≠ []) :
    headNotSpace (l ++ t) := by
  cases l with
  | nil => exact absurd rfl hne
  | cons c cs => exact h

theorem rejoins_peel_chunks (chunks : List (List Char)) :
    ∀ t L, (∀ ch ∈ chunks, ch ≠ [] ∧ headNotSpace ch) →
      rejoins (chunks.foldr (· ++ ·) t) (chunks ++ L) = rejoins t L := by
  induction chunks with
  | nil =>
    intro t L _
    rfl
  | cons ch chunks ih =>
    intro t L h
    have h1 := h ch (List.mem_cons_self ch chunks)
    simp only [List.foldr_cons, List.cons_append]
    rw [rejoins_peel ch _ _ h1.1 h1.2]
    exact ih t L fun c hc => h c (List.mem_cons_of_mem _ hc)

theorem foldr_append_assoc (chunks : List (List Char)) (a b : List Char) :
    chunks.foldr (· ++ ·) a ++ b = chunks.foldr (· ++ ·) (a ++ b) := by
  induction chunks with
  | nil => rfl
  | cons c cs ih => simp [List.foldr_cons, List.append_assoc, ih]

theorem hardSplit_cases (width : Nat) (w : List Char) (hwid : 0 < width) :
    ∃ chunks r, hardSplit width w = (chunks, r) ∧
      chunks.foldr (· ++ ·) r = w ∧
      (∀ ch ∈ chunks, ch.length ≤ width ∧ ch ≠ []) ∧
      r.length ≤ width ∧
      (∀ x ∈ r, x ∈ w) ∧
      (∀ ch ∈ chunks, ∀ x ∈ ch, x ∈ w) := by
  obtain ⟨ha, hb, hc, hd, he⟩ := hardSplit_spec width w hwid
  exact ⟨(hardSplit width w).1, (hardSplit width w).2, rfl, ha, hb, hc, hd, he⟩

/-- The wrap fold, started from an accumulated current line and a list of
still-unprocessed space-free words, produces lines that re-join to the
remaining text. -/
theorem rejoins_fold (width : Nat) (hwid : 0 < width) (ws : List (List Char)) :
    ∀ line, (∀ w ∈ ws, ' ' ∉ w) → headNotSpace line →
      rejoins (line ++ tailText ws)
        (finishLines (ws.foldl (wrapStep width) ([], line))) = true := by
  induction ws with
  | nil =>
    intro line _ hline
    simp only [tailText, List.append_nil, List.foldl_nil, finishLines]
    by_cases hl : line = []
    · subst hl
      simp [rejoins]
    · rw [if_neg hl, List.nil_append]
      have h := rejoins_peel line [] [] hl hline
      rw [List.append_nil] at h
      rw [h]
      rfl
  | cons w ws ih =>
    intro line hws hline
    have hwsp : ' ' ∉ w := hws w (List.mem_cons_self w ws)
    have hws' : ∀ u ∈ ws, ' ' ∉ u := fun u hu => hws u (List.mem_cons_of_mem _ hu)
    simp only [List.foldl_cons, tailText]
    by_cases hl : line = []
    · subst hl
      by_cases hfit : w.length ≤ width
      · have hstep : wrapStep width ([], []) w = ([], w) := by
          simp [wrapStep, hfit]
        rw [hstep, List.nil_append, rejoins_cons_space]
        exact ih w hws' (headNotSpace_of_no_space w hwsp)
      · obtain ⟨chunks, r, heq, ha, hb, _, hd, he⟩ := hardSplit_cases width w hwid
        have hchunks : ∀ ch ∈ chunks, ch ≠ [] ∧ headNotSpace ch := by
          intro ch hch
          exact ⟨(hb ch hch).2,
            headNotSpace_of_no_space ch fun hsp => hwsp (he ch hch ' ' hsp)⟩
        have hstep : wrapStep width ([], []) w = (chunks, r) := by
          simp [wrapStep, hfit, heq]
        rw [hstep, foldl_wrapStep_factor width ws chunks r, finishLines_factor,
          List.nil_append, rejoins_cons_space, ← ha, foldr_append_assoc,
          rejoins_peel_chunks chunks _ _ hchunks]
        exact ih r hws' (headNotSpace_of_no_space r fun hsp => hwsp (hd ' ' hsp))
    · by_cases hfit : (line ++ ' ' :: w).length ≤ width
      · have hfit' : line.length + (w.length + 1) ≤ width := by
          simpa using hfit
        have hstep : wrapStep width ([], line) w = ([], line ++ ' ' :: w) := by
          simp [wrapStep, hl, hfit']
        rw [hstep]
        have htext : line ++ ' ' :: (w ++ tailText ws) =
            (line ++ ' ' :: w) ++ tailText ws := by
          simp [List.append_assoc]
        rw [htext]
        exact ih (line ++ ' ' :: w) hws' (headNotSpace_append line _ hline hl)
      · obtain ⟨chunks, r, heq, ha, hb, _, hd, he⟩ := hardSplit_cases width w hwid
        have hchunks : ∀ ch ∈ chunks, ch ≠ [] ∧ headNotSpace ch := by
          intro ch hch
          exact ⟨(hb ch hch).2,
            headNotSpace_of_no_space ch fun hsp => hwsp (he ch hch ' ' hsp)⟩
        have hfit' : ¬ line.length + (w.length + 1) ≤ width := by
          simpa using hfit
        have hstep : wrapStep width ([], line) w = ([line] ++ chunks, r) := by
          simp [wrapStep, hl, hfit', heq]
        rw [hstep, foldl_wrapStep_factor width ws ([line] ++ chunks) r,
          finishLines_factor]
        have hlist : [line] ++ chunks ++
            finishLines (ws.foldl (wrapStep width) ([], r)) =
            line :: (chunks ++ finishLines (ws.foldl (wrapStep width) ([], r))) := by
          simp
        rw [hlist, rejoins_peel line _ _ hl hline, rejoins_cons_space, ← ha,
          foldr_append_assoc, rejoins_peel_chunks chunks _ _ hchunks]
        exact ih r hws' (headNotSpace_of_no_space r fun hsp => hwsp (hd ' ' hsp))

/-- Claim C4: for every text and every width ≥ 1, re-joining the lines
returned by `wrap_text_to_lines` with the implied single-space joins
reconstructs the original text up to the elision of absorbed separator
spaces: no character is invented and none is duplicated (`rejoins` checks
precisely that the lines occur in order as blocks of the text, with only
separator spaces elided between consecutive blocks and after the last). -/
theorem wrap_rejoins_text (text : List Char) (width : Int) (hw : 1 ≤ width) :
    rejoins text (wrap_text_to_lines text width) = true := by
  have hwid : 0 < width.toNat := by omega
  have hneg : ¬ width ≤ 0 := by omega
  unfold wrap_text_to_lines
  rw [if_neg hneg]
  have h := rejoins_fold width.toNat hwid (splitOnSpace text) []
    (splitOnSpace_no_space text) trivial
  rw [List.nil_append, tailText_splitOnSpace, rejoins_cons_space] at h
  exact h

/-- Witness for C4 at the §8 scenario input. -/
theorem wrap_rejoins_text_witness :
    rejoins ("ab cd".toList) (wrap_text_to_lines ("ab cd".toList) 4) = true :=
  wrap_rejoins_text ("ab cd".toList) 4 (by decide)

/-! ## Width bound of the wrapped lines -/

theorem wrapStep_length_le (width : Nat) (hwid : 0 < width)
    (st : List (List Char) × List Char) (w : List Char)
    (h1 : ∀ l ∈ st.1, l.length ≤ width) (h2 : st.2.length ≤ width) :
    (∀ l ∈ (wrapStep width st w).1, l.length ≤ width) ∧
      (wrapStep width st w).2.length ≤ width := by
  simp only [wrapStep]
  by_cases hfit : (if st.2 = [] then w else st.2 ++ ' ' :: w).length ≤ width
  · rw [if_pos hfit]
    exact ⟨h1, hfit⟩
  · rw [if_neg hfit]
    obtain ⟨chunks, r, heq, _, hb, hc, _, _⟩ := hardSplit_cases width w hwid
    rw [heq]
    refine ⟨?_, hc⟩
    intro l hl
    rcases List.mem_append.mp hl with h | h
    · by_cases hline : st.2 = []
      · rw [if_pos hline] at h
        exact h1 l h
      · rw [if_neg hline] at h
        rcases List.mem_append.mp h with h | h
        · exact h1 l h
        · rw [List.mem_singleton.mp h]
          exact h2
    · exact (hb l h).1

theorem wrap_fold_length_le (width : Nat) (hwid : 0 < width) (ws : List (List Char)) :
    ∀ st, (∀ l ∈ st.1, l.length ≤ width) → st.2.length ≤ width →
      (∀ l ∈ (ws.foldl (wrapStep width) st).1, l.length ≤ width) ∧
        (ws.foldl (wrapStep width) st).2.length ≤ width := by
  induction ws with
  | nil =>
    intro st h1 h2
    exact ⟨h1, h2⟩
  | cons w ws ih =>
    intro st h1 h2
    simp only [List.foldl_cons]
    obtain ⟨ha, hb⟩ := wrapStep_length_le width hwid st w h1 h2
    exact ih (wrapStep width st w) ha hb

theorem mem_finishLines (st : List (List Char) × List Char) (l : List Char)
    (h : l ∈ finishLines st) : l ∈ st.1 ∨ l = st.2 := by
  unfold finishLines at h
  by_cases h2 : st.2 = []
  · rw [if_pos h2] at h
    exact Or.inl h
  · rw [if_neg h2] at h
    rcases List.mem_append.mp h with h | h
    · exact Or.inl h
    · exact Or.inr (List.mem_singleton.mp h)

/-- Claim C8: for every text and width ≥ 1, every line returned by
`wrap_text_to_lines` has length at most `width` — a word joins the current
line only when the result still fits, and an oversized word is hard-split
into chunks of exactly `width` characters with the remainder (of length at
most `width`) continuing as the new current line. -/
theorem wrap_lines_within_width (text : List Char) (width : Int) (hw : 1 ≤ width) :
    ∀ l ∈ wrap_text_to_lines text width, (l.length : Int) ≤ width := by
  have hwid : 0 < width.toNat := by omega
  have hneg : ¬ width ≤ 0 := by omega
  intro l hl
  unfold wrap_text_to_lines at hl
  rw [if_neg hneg] at hl
  obtain ⟨hA, hB⟩ := wrap_fold_length_le width.toNat hwid (splitOnSpace text)
    ([], []) (by simp) (by simp)
  have hle : l.length ≤ width.toNat := by
    rcases mem_finishLines _ l hl with h | h
    · exact hA l h
    · rw [h]
      exact hB
  omega

/-- Witness for C8: the first line of the §8 scenario fits in width 4. -/
theorem wrap_lines_within_width_witness :
    (("ab".toList).length : Int) ≤ 4 :=
  wrap_lines_within_width ("ab cd".toList) 4 (by decide) ("ab".toList) (by decide)

/-! ## Scenario claims about the coordinate table and the typing scenario -/

/-- Counterexample to claim C3 as stated: for target `"ab cd"` at width 4
the wrap does produce the lines `["ab", "cd"]`, but the inter-word space at
flat index 2 is NOT absorbed from the coordinate table — the source
condition is `len(line) < max_text_width` (the line has remaining width),
not "the line was not closed by wrapping", and `len("ab") = 2 < 4` — so the
table is not the four-entry table the claim describes. -/
theorem flat_to_line_absorbed_counterexample :
    ¬ (flat_to_line ("ab cd".toList) 4 = [(0, 0), (0, 1), (1, 0), (1, 1)]) := by
  decide

/-- Claim C3 amended: a separator space receives a table entry exactly when
it exists at the running index and the line it would join is not full
(`len(line) < width`), even if that line was closed by wrapping; for
`"ab cd"` at width 4 the wrap produces `["ab", "cd"]` and the space at flat
index 2 receives the cell `(0, 2)` just past `"ab"`. -/
theorem flat_to_line_space_cell :
    wrap_text_to_lines ("ab cd".toList) 4 = ["ab".toList, "cd".toList] ∧
    flat_to_line ("ab cd".toList) 4 = [(0, 0), (0, 1), (0, 2), (1, 0), (1, 1)] := by
  decide

/-- Claim C2: typing `'a'`, `'b'`, `'c'` against target `"abX"`, then one
backspace, then `'X'` leaves the final counters at `typed = 3`,
`correct = 2`, `mistakes = 1`.  (The third keystroke fills the typed log,
so the words-mode completion check fires at that very event; the backspace
and the final `'X'` are consumed by the post-completion prompt and change
nothing — the counters stay exactly as the claim states.) -/
theorem scenario_abX_counters :
    scenarioC2.stats.typed = 3 ∧ scenarioC2.stats.correct = 2 ∧
      scenarioC2.stats.mistakes = 1 := by
  decide

/-! ## List helpers for the counter invariant -/

theorem getD_snoc (l : List Char) (c d : Char) : (l ++ [c]).getD l.length d = c := by
  induction l with
  | nil => rfl
  | cons a l ih => simp [List.getD_cons_succ, ih]

theorem zip_append_of_le (log : List Char) :
    ∀ text u : List Char, log.length ≤ text.length →
      log.zip (text ++ u) = log.zip text := by
  induction log with
  | nil =>
    intro text u _
    simp
  | cons a l ih =>
    intro text u h
    cases text with
    | nil => simp at h
    | cons b t =>
      simp only [List.cons_append, List.zip_cons_cons]
      rw [ih t u (by simpa using h)]

theorem matchCount_append_right (log text u : List Char) (h : log.length ≤ text.length) :
    matchCount log (text ++ u) = matchCount log text := by
  unfold matchCount
  rw [zip_append_of_le log text u h]

theorem matchCount_le (log text : List Char) : matchCount log text ≤ log.length := by
  unfold matchCount
  refine le_trans (List.countP_le_length _) ?_
  rw [List.length_zip]
  exact Nat.min_le_left _ _

theorem matchCount_snoc (log : List Char) :
    ∀ text : List Char, log.length < text.length → ∀ c,
      matchCount (log ++ [c]) text =
        matchCount log text + (if c = text.getD log.length ' ' then 1 else 0) := by
  induction log with
  | nil =>
    intro text h c
    cases text with
    | nil => simp at h
    | cons b t =>
      simp [matchCount, List.zip_cons_cons, List.countP_cons, beq_iff_eq,
        List.getD_cons_zero]
  | cons a l ih =>
    intro text h c
    cases text with
    | nil => simp at h
    | cons b t =>
      have hlen : l.length < t.length := by simpa using h
      have hrec := ih t hlen c
      simp only [matchCount] at hrec
      simp only [List.cons_append, matchCount, List.zip_cons_cons,
        List.countP_cons, List.length_cons, List.getD_cons_succ]
      rw [hrec]
      split_ifs <;> omega

/-! ## Preservation of the counter invariant by every event -/

theorem countersOk_of_fields (s s' : SessionState)
    (htext : s'.text = s.text) (hlog : s'.typedLog = s.typedLog)
    (ht : s'.stats.typed = s.stats.typed) (hc : s'.stats.correct = s.stats.correct)
    (hm : s'.stats.mistakes = s.stats.mistakes) (h : CountersOk s) : CountersOk s' := by
  unfold CountersOk at *
  rw [htext, hlog, ht, hc, hm]
  exact h

theorem countersOk_startUpdate (s : SessionState) (c : Char) (now : Nat)
    (h : CountersOk s) : CountersOk (startUpdate s c now) := by
  unfold startUpdate Stats.start
  split_ifs <;> exact h

theorem countersOk_finishUpdate (s : SessionState) (now : Nat)
    (h : CountersOk s) : CountersOk (finishUpdate s now) := by
  unfold finishUpdate Stats.stop
  split_ifs <;> exact h

theorem countersOk_extendUpdate (s : SessionState) (now : Nat)
    (h : CountersOk s) : CountersOk (extendUpdate s now) := by
  unfold extendUpdate
  split_ifs with hcond
  · obtain ⟨h1, h2, h3, h4⟩ := h
    refine ⟨h1, ?_, ?_, ?_⟩
    · show s.stats.correct = matchCount s.typedLog (s.text ++ extChunk now s.cfg)
      rw [matchCount_append_right _ _ _ h4]
      exact h2
    · show s.stats.mistakes =
        s.typedLog.length - matchCount s.typedLog (s.text ++ extChunk now s.cfg)
      rw [matchCount_append_right _ _ _ h4]
      exact h3
    · show s.typedLog.length ≤ (s.text ++ extChunk now s.cfg).length
      rw [List.length_append]
      omega
  · exact h

theorem countersOk_pushUpdate (s : SessionState) (c : Char)
    (h : CountersOk s) : CountersOk (pushUpdate s c) := by
  unfold pushUpdate
  split_ifs with hlen
  · obtain ⟨h1, h2, h3, h4⟩ := h
    have hm := matchCount_snoc s.typedLog s.text hlen c
    have hle := matchCount_le s.typedLog s.text
    unfold CountersOk
    dsimp only
    rw [List.length_append, List.length_cons, List.length_nil, hm]
    split_ifs with hc <;>
      exact ⟨by omega, by omega, by omega, by omega⟩
  · exact h

/-- What the backspace update does to a state whose log ends in `c`. -/
theorem backspaceUpdate_snoc (s : SessionState) (l' : List Char) (c : Char)
    (hlog : s.typedLog = l' ++ [c]) :
    backspaceUpdate s =
      if c = s.text.getD l'.length ' ' then
        { s with
          stats := { s.stats with
            typed := s.stats.typed - 1
            correct := s.stats.correct - 1 }
          typedLog := l' }
      else
        { s with
          stats := { s.stats with
            typed := s.stats.typed - 1
            mistakes := s.stats.mistakes - 1 }
          typedLog := l' } := by
  unfold backspaceUpdate
  rw [hlog, if_neg (by simp : ¬ (l' ++ [c] : List Char) = [])]
  dsimp only
  rw [List.length_append, List.length_cons, List.length_nil, Nat.add_sub_cancel,
    getD_snoc, List.dropLast_concat]
  split_ifs with hcmp <;> rfl

theorem countersOk_backspaceUpdate (s : SessionState)
    (h : CountersOk s) : CountersOk (backspaceUpdate s) := by
  by_cases hnil : s.typedLog = []
  · unfold backspaceUpdate
    rw [if_pos hnil]
    exact h
  · obtain ⟨l', c, hlog⟩ : ∃ l' c, s.typedLog = l' ++ [c] :=
      ⟨_, _, (List.dropLast_append_getLast hnil).symm⟩
    obtain ⟨h1, h2, h3, h4⟩ := h
    rw [hlog] at h1 h2 h3 h4
    have hlen1 : (l' ++ [c]).length = l'.length + 1 := by
      rw [List.length_append, List.length_cons, List.length_nil]
    have hlt : l'.length < s.text.length := by
      rw [hlen1] at h4
      omega
    have hm := matchCount_snoc l' s.text hlt c
    have hle := matchCount_le l' s.text
    rw [hlen1] at h1 h3 h4
    rw [hm] at h2 h3
    rw [backspaceUpdate_snoc s l' c hlog]
    unfold CountersOk
    split_ifs with hcmp
    · rw [if_pos hcmp] at h2 h3
      dsimp only
      exact ⟨by omega, by omega, by omega, by omega⟩
    · rw [if_neg hcmp] at h2 h3
      dsimp only
      exact ⟨by omega, by omega, by omega, by omega⟩

theorem countersOk_step (s : SessionState) (e : Event)
    (h : CountersOk s) : CountersOk (typingSessionStep s e) := by
  cases e with
  | printable c now =>
    unfold typingSessionStep
    split_ifs
    · exact h
    · exact countersOk_finishUpdate _ _ (countersOk_extendUpdate _ _
        (countersOk_pushUpdate _ _ (countersOk_startUpdate _ _ _ h)))
  | backspace now =>
    unfold typingSessionStep
    split_ifs
    · exact h
    · exact countersOk_backspaceUpdate _ h
  | backspaceKey now =>
    unfold typingSessionStep
    split_ifs
    · exact h
    · exact countersOk_finishUpdate _ _ (countersOk_backspaceUpdate _ h)
  | quit now =>
    unfold typingSessionStep Stats.stop
    split_ifs <;> exact h

/-! ## Structural facts about the update functions -/

theorem startUpdate_facts (s : SessionState) (c : Char) (now : Nat) :
    (startUpdate s c now).cfg = s.cfg ∧ (startUpdate s c now).text = s.text ∧
    (startUpdate s c now).typedLog = s.typedLog ∧
    (startUpdate s c now).done = s.done := by
  unfold startUpdate
  split_ifs <;> exact ⟨rfl, rfl, rfl, rfl⟩

theorem pushUpdate_lt (s : SessionState) (c : Char)
    (h : s.typedLog.length < s.text.length) :
    (pushUpdate s c).cfg = s.cfg ∧ (pushUpdate s c).text = s.text ∧
    (pushUpdate s c).typedLog = s.typedLog ++ [c] ∧
    (pushUpdate s c).done = s.done := by
  unfold pushUpdate
  rw [if_pos h]
  exact ⟨rfl, rfl, rfl, rfl⟩

theorem extendUpdate_pos (s : SessionState) (now : Nat)
    (h : s.cfg.mode = Mode.time ∧ s.text.length ≤ s.typedLog.length ∧
      finishedAt s now = false) :
    extendUpdate s now = { s with text := s.text ++ extChunk now s.cfg } := by
  unfold extendUpdate
  rw [if_pos h]

theorem extendUpdate_neg (s : SessionState) (now : Nat)
    (h : ¬ (s.cfg.mode = Mode.time ∧ s.text.length ≤ s.typedLog.length ∧
      finishedAt s now = false)) :
    extendUpdate s now = s := by
  unfold extendUpdate
  rw [if_neg h]

theorem finishUpdate_done_false (s : SessionState) (now : Nat)
    (h : (finishUpdate s now).done = false) :
    finishUpdate s now = s ∧ finishedAt s now = false := by
  unfold finishUpdate at h ⊢
  split_ifs at h ⊢ with hf
  exact ⟨rfl, by simpa using hf⟩

theorem finishedAt_set_text (s : SessionState) (u : List Char) (now : Nat)
    (hmode : s.cfg.mode = Mode.time) :
    finishedAt { s with text := u } now = finishedAt s now := by
  unfold finishedAt
  have hcfg : ({ s with text := u } : SessionState).cfg.mode = s.cfg.mode := rfl
  rw [hcfg, hmode]

theorem extChunk_ne_nil (entropy : Nat) (cfg : Config) : extChunk entropy cfg ≠ [] := by
  unfold extChunk
  simp

theorem backspaceUpdate_facts (s : SessionState) :
    (backspaceUpdate s).cfg = s.cfg ∧ (backspaceUpdate s).text = s.text ∧
    (backspaceUpdate s).done = s.done ∧
    (backspaceUpdate s).typedLog.length ≤ s.typedLog.length := by
  unfold backspaceUpdate
  split_ifs <;> refine ⟨rfl, rfl, rfl, ?_⟩
  · exact le_refl _
  · show s.typedLog.dropLast.length ≤ s.typedLog.length
    rw [List.length_dropLast]
    omega

/-! ## Preservation of the loop-room invariant -/

theorem loopRoom_step (s : SessionState) (e : Event)
    (hp : LoopRoom s) : LoopRoom (typingSessionStep s e) := by
  cases e with
  | printable c now =>
    simp only [typingSessionStep]
    split_ifs with hdone
    · exact hp
    · rw [Bool.not_eq_true] at hdone
      have hroom : s.typedLog.length < s.text.length := hp hdone
      obtain ⟨hA1, hA2, hA3, hA4⟩ := startUpdate_facts s c now
      set sA := startUpdate s c now with hsA
      have hroomA : sA.typedLog.length < sA.text.length := by
        rw [hA2, hA3]
        exact hroom
      obtain ⟨hB1, hB2, hB3, hB4⟩ := pushUpdate_lt sA c hroomA
      set sB := pushUpdate sA c with hsB
      have hlenB : sB.typedLog.length = s.typedLog.length + 1 := by
        rw [hB3, List.length_append, List.length_cons, List.length_nil, hA3]
      have htextB : sB.text = s.text := by
        rw [hB2, hA2]
      have hdoneB : sB.done = false := by
        rw [hB4, hA4, hdone]
      by_cases hext : sB.cfg.mode = Mode.time ∧ sB.text.length ≤ sB.typedLog.length ∧
          finishedAt sB now = false
      · rw [extendUpdate_pos sB now hext]
        set sC : SessionState := { sB with text := sB.text ++ extChunk now sB.cfg }
          with hsC
        have hfinC : finishedAt sC now = false := by
          rw [hsC, finishedAt_set_text sB _ now hext.1]
          exact hext.2.2
        intro hdone'
        unfold finishUpdate
        rw [hfinC]
        simp only [Bool.false_eq_true, if_false]
        show sC.typedLog.length < sC.text.length
        have hchunk : extChunk now sB.cfg ≠ [] := extChunk_ne_nil now sB.cfg
        have : 0 < (extChunk now sB.cfg).length := List.length_pos.mpr hchunk
        have hlenC : sC.typedLog.length = sB.typedLog.length := rfl
        have htextC : sC.text.length = sB.text.length + (extChunk now sB.cfg).length := by
          rw [hsC]
          exact List.length_append _ _
        have htextBlen : sB.text.length = s.text.length := by
          rw [htextB]
        omega
      · rw [extendUpdate_neg sB now hext]
        intro hdone'
        obtain ⟨heq, hfin⟩ := finishUpdate_done_false sB now hdone'
        rw [heq]
        show sB.typedLog.length < sB.text.length
        rcases hmode : sB.cfg.mode with _ | _
        · -- time mode: the extension guard failed while finishedAt was false
          push_neg at hext
          by_cases hle : sB.text.length ≤ sB.typedLog.length
          · exact absurd hfin (hext hmode hle)
          · omega
        · -- words mode: the finished check returned false
          unfold finishedAt at hfin
          rw [hmode] at hfin
          simpa using hfin
  | backspace now =>
    simp only [typingSessionStep]
    split_ifs with hdone
    · exact hp
    · rw [Bool.not_eq_true] at hdone
      obtain ⟨_, htext, hdn, hlen⟩ := backspaceUpdate_facts s
      intro hdone'
      rw [htext]
      have hroom : s.typedLog.length < s.text.length := hp hdone
      omega
  | backspaceKey now =>
    simp only [typingSessionStep]
    split_ifs with hdone
    · exact hp
    · rw [Bool.not_eq_true] at hdone
      intro hdone'
      obtain ⟨heq, _⟩ := finishUpdate_done_false (backspaceUpdate s) now hdone'
      rw [heq]
      obtain ⟨_, htext, hdn, hlen⟩ := backspaceUpdate_facts s
      rw [htext]
      have hroom : s.typedLog.length < s.text.length := hp hdone
      omega
  | quit now =>
    simp only [typingSessionStep]
    split_ifs with hdone
    · exact hp
    · intro hdone'
      simp at hdone'

/-! ## The reachability invariant and the counter claims -/

theorem reachable_inv (cfg : Config) (s : SessionState) (h : Reachable cfg s) :
    CountersOk s ∧ LoopRoom s := by
  induction h with
  | init text htext =>
    constructor
    · unfold CountersOk initSession matchCount
      simp
    · intro _
      show ([] : List Char).length < text.length
      simpa using List.length_pos.mpr htext
  | step s e _ ih =>
    exact ⟨countersOk_step s e ih.1, loopRoom_step s e ih.2⟩

theorem countersOk_runSession (cfg : Config) (text : List Char)
    (events : List Event) : CountersOk (runSession cfg text events) := by
  unfold runSession
  have h : ∀ s : SessionState, CountersOk s →
      CountersOk (events.foldl typingSessionStep s) := by
    induction events with
    | nil =>
      intro s h
      exact h
    | cons e es ih =>
      intro s h
      exact ih _ (countersOk_step s e h)
  apply h
  unfold CountersOk initSession matchCount
  simp

/-- Claim C1: for every session (any configuration and any target text) and
every sequence of key events — printable characters, backspaces in either
delivery, quit — after each event is fully processed the counters satisfy
`typed = correct + mistakes = len(typed log)`.  The step function
`typingSessionStep` is total, so no event-processing step can fail;
quantifying over every event list covers the state after each prefix of a
longer interaction. -/
theorem session_counters_invariant (cfg : Config) (text : List Char)
    (events : List Event) :
    (runSession cfg text events).stats.typed =
        (runSession cfg text events).stats.correct +
          (runSession cfg text events).stats.mistakes ∧
      (runSession cfg text events).stats.typed =
        (runSession cfg text events).typedLog.length := by
  obtain ⟨h1, h2, h3, h4⟩ := countersOk_runSession cfg text events
  have hle := matchCount_le (runSession cfg text events).typedLog
    (runSession cfg text events).text
  exact ⟨by omega, by omega⟩

/-- Claim C7: in every reachable session state, `accuracy` lies in `[0, 1]`
(it is `0` when `typed = 0` and `correct / typed` otherwise, and the
invariant gives `correct ≤ typed`) and `raw_wpm` is non-negative at every
clock reading. -/
theorem metrics_bounds (cfg : Config) (s : SessionState) (now : Nat)
    (hr : Reachable cfg s) :
    0 ≤ s.stats.accuracy ∧ s.stats.accuracy ≤ 1 ∧ 0 ≤ s.stats.raw_wpm now := by
  obtain ⟨⟨h1, h2, h3, h4⟩, _⟩ := reachable_inv cfg s hr
  have hle : s.stats.correct ≤ s.stats.typed := by
    have := matchCount_le s.typedLog s.text
    omega
  refine ⟨?_, ?_, ?_⟩
  · unfold Stats.accuracy
    split_ifs
    · exact le_refl 0
    · exact div_nonneg (by positivity) (by positivity)
  · unfold Stats.accuracy
    split_ifs with h0
    · exact zero_le_one
    · rw [div_le_one (by exact_mod_cast Nat.pos_of_ne_zero h0)]
      exact_mod_cast hle
  · unfold Stats.raw_wpm
    split_ifs with h0
    · exact le_refl 0
    · have hpos : 0 < s.stats.minutes_elapsed now := lt_of_not_le h0
      exact div_nonneg (by positivity) (le_of_lt hpos)

/-- Witness for C7: the bounds at the reachable initial state of a
words-mode session. -/
theorem metrics_bounds_witness :
    0 ≤ (initSession cfgWordsEx ("abX".toList)).stats.accuracy ∧
      (initSession cfgWordsEx ("abX".toList)).stats.accuracy ≤ 1 ∧
      0 ≤ (initSession cfgWordsEx ("abX".toList)).stats.raw_wpm 7 :=
  metrics_bounds cfgWordsEx (initSession cfgWordsEx ("abX".toList)) 7
    (Reachable.init "abX".toList (by decide))

/-! ## The backspace round trip -/

theorem startUpdate_stats (s : SessionState) (c : Char) (now : Nat) :
    (startUpdate s c now).stats.typed = s.stats.typed ∧
    (startUpdate s c now).stats.correct = s.stats.correct ∧
    (startUpdate s c now).stats.mistakes = s.stats.mistakes ∧
    (startUpdate s c now).stats.ended = s.stats.ended := by
  unfold startUpdate Stats.start
  split_ifs <;> exact ⟨rfl, rfl, rfl, rfl⟩

theorem pushUpdate_stats_lt (s : SessionState) (c : Char)
    (h : s.typedLog.length < s.text.length) :
    (pushUpdate s c).stats.typed = s.stats.typed + 1 ∧
    (pushUpdate s c).stats.correct =
      (if c = s.text.getD s.typedLog.length ' ' then s.stats.correct + 1
        else s.stats.correct) ∧
    (pushUpdate s c).stats.mistakes =
      (if c = s.text.getD s.typedLog.length ' ' then s.stats.mistakes
        else s.stats.mistakes + 1) ∧
    (pushUpdate s c).stats.started = s.stats.started ∧
    (pushUpdate s c).stats.ended = s.stats.ended := by
  unfold pushUpdate
  rw [if_pos h]
  exact ⟨rfl, rfl, rfl, rfl, rfl⟩

theorem extendUpdate_shape (s : SessionState) (now : Nat) :
    ∃ u : List Char, extendUpdate s now = { s with text := s.text ++ u } := by
  unfold extendUpdate
  split_ifs
  · exact ⟨extChunk now s.cfg, rfl⟩
  · refine ⟨[], ?_⟩
    simp

theorem finishUpdate_text (s : SessionState) (now : Nat) :
    (finishUpdate s now).text = s.text := by
  unfold finishUpdate
  split_ifs <;> rfl

/-- Counterexample to claim C5 as stated: in a words-mode session with
one-character target `"a"` — a reachable initial state — the printable
event `'a'` fills the typed log and completes the session; the immediately
following backspace is consumed by the post-completion prompt, so the
counters are NOT restored to their pre-event values (`typed` stays 1
instead of returning to 0). -/
theorem backspace_roundtrip_counterexample :
    Reachable cfgWordsEx (initSession cfgWordsEx ("a".toList)) ∧
    ¬ ((typingSessionStep (typingSessionStep (initSession cfgWordsEx ("a".toList))
            (Event.printable 'a' 1)) (Event.backspace 2)).stats.typed =
          (initSession cfgWordsEx ("a".toList)).stats.typed ∧
        (typingSessionStep (typingSessionStep (initSession cfgWordsEx ("a".toList))
            (Event.printable 'a' 1)) (Event.backspace 2)).stats.correct =
          (initSession cfgWordsEx ("a".toList)).stats.correct ∧
        (typingSessionStep (typingSessionStep (initSession cfgWordsEx ("a".toList))
            (Event.printable 'a' 1)) (Event.backspace 2)).stats.mistakes =
          (initSession cfgWordsEx ("a".toList)).stats.mistakes) :=
  ⟨Reachable.init "a".toList (by decide), by decide⟩

/-- Claim C5 amended: for every reachable, unfinished session state, a
printable-character event followed immediately by one backspace restores
`typed`, `correct` and `mistakes` to their pre-event values, PROVIDED the
printable event does not complete the session (when it does, the backspace
is consumed by the post-completion prompt and nothing is restored). -/
theorem backspace_roundtrip (cfg : Config) (s : SessionState) (c : Char)
    (now now2 : Nat) (hr : Reachable cfg s) (hdone : s.done = false)
    (hdone1 : (typingSessionStep s (Event.printable c now)).done = false) :
    (typingSessionStep (typingSessionStep s (Event.printable c now))
        (Event.backspace now2)).stats.typed = s.stats.typed ∧
    (typingSessionStep (typingSessionStep s (Event.printable c now))
        (Event.backspace now2)).stats.correct = s.stats.correct ∧
    (typingSessionStep (typingSessionStep s (Event.printable c now))
        (Event.backspace now2)).stats.mistakes = s.stats.mistakes := by
  have hroom : s.typedLog.length < s.text.length :=
    (reachable_inv cfg s hr).2 hdone
  obtain ⟨hA1, hA2, hA3, hA4⟩ := startUpdate_facts s c now
  obtain ⟨hS1, hS2, hS3, hS4⟩ := startUpdate_stats s c now
  set sA := startUpdate s c now with hsA
  have hroomA : sA.typedLog.length < sA.text.length := by
    rw [hA2, hA3]
    exact hroom
  obtain ⟨hB1, hB2, hB3, hB4⟩ := pushUpdate_lt sA c hroomA
  obtain ⟨hT1, hT2, hT3, hT4, hT5⟩ := pushUpdate_stats_lt sA c hroomA
  rw [hA2, hA3] at hT2 hT3
  set sB := pushUpdate sA c with hsB
  obtain ⟨u, hC⟩ := extendUpdate_shape sB now
  have hstep : typingSessionStep s (Event.printable c now) =
      finishUpdate (extendUpdate sB now) now := by
    simp only [typingSessionStep, hdone, Bool.false_eq_true, if_false, hsB, hsA]
  rw [hstep] at hdone1 ⊢
  obtain ⟨heq, _⟩ := finishUpdate_done_false (extendUpdate sB now) now hdone1
  rw [heq] at hdone1 ⊢
  rw [hC] at hdone1 ⊢
  set sC : SessionState := { sB with text := sB.text ++ u } with hsC
  have hdoneB : sB.done = false := hdone1
  have hstep2 : typingSessionStep sC (Event.backspace now2) = backspaceUpdate sC := by
    simp only [typingSessionStep, hdoneB, Bool.false_eq_true, if_false]
  rw [hstep2]
  have hlogC : sC.typedLog = s.typedLog ++ [c] := by
    show sB.typedLog = s.typedLog ++ [c]
    rw [hB3, hA3]
  rw [backspaceUpdate_snoc sC s.typedLog c hlogC]
  have htextC : sC.text.getD s.typedLog.length ' ' =
      s.text.getD s.typedLog.length ' ' := by
    show (sB.text ++ u).getD s.typedLog.length ' ' = _
    rw [hB2, hA2]
    exact List.getD_append _ _ _ _ hroom
  rw [htextC]
  by_cases hb : c = s.text.getD s.typedLog.length ' '
  · rw [if_pos hb]
    rw [if_pos hb] at hT2 hT3
    refine ⟨?_, ?_, ?_⟩
    · show sB.stats.typed - 1 = s.stats.typed
      rw [hT1, hS1]
      omega
    · show sB.stats.correct - 1 = s.stats.correct
      rw [hT2, hS2]
      omega
    · show sB.stats.mistakes = s.stats.mistakes
      rw [hT3, hS3]
  · rw [if_neg hb]
    rw [if_neg hb] at hT2 hT3
    refine ⟨?_, ?_, ?_⟩
    · show sB.stats.typed - 1 = s.stats.typed
      rw [hT1, hS1]
      omega
    · show sB.stats.correct = s.stats.correct
      rw [hT2, hS2]
    · show sB.stats.mistakes - 1 = s.stats.mistakes
      rw [hT3, hS3]
      omega

/-- Witness for C5 at a concrete reachable state: target `"ab"`, one
correct keystroke, then backspace. -/
theorem backspace_roundtrip_witness :
    (typingSessionStep (typingSessionStep (initSession cfgWordsEx ("ab".toList))
        (Event.printable 'a' 1)) (Event.backspace 2)).stats.typed =
      (initSession cfgWordsEx ("ab".toList)).stats.typed ∧
    (typingSessionStep (typingSessionStep (initSession cfgWordsEx ("ab".toList))
        (Event.printable 'a' 1)) (Event.backspace 2)).stats.correct =
      (initSession cfgWordsEx ("ab".toList)).stats.correct ∧
    (typingSessionStep (typingSessionStep (initSession cfgWordsEx ("ab".toList))
        (Event.printable 'a' 1)) (Event.backspace 2)).stats.mistakes =
      (initSession cfgWordsEx ("ab".toList)).stats.mistakes :=
  backspace_roundtrip cfgWordsEx (initSession cfgWordsEx ("ab".toList)) 'a' 1 2
    (Reachable.init "ab".toList (by decide)) rfl (by decide)

/-! ## The started timestamp -/

theorem startUpdate_started_none (s : SessionState) (c : Char) (now : Nat)
    (h : s.stats.started = none) (hc : c ≠ ' ') :
    (startUpdate s c now).stats.started = some now := by
  unfold startUpdate Stats.start
  rw [if_pos hc, if_pos h]

theorem startUpdate_started_some (s : SessionState) (c : Char) (now t : Nat)
    (h : s.stats.started = some t) :
    (startUpdate s c now).stats.started = some t := by
  unfold startUpdate Stats.start
  split_ifs with h1 h2
  · rw [h] at h2
    cases h2
  · exact h
  · exact h

theorem pushUpdate_started (s : SessionState) (c : Char) :
    (pushUpdate s c).stats.started = s.stats.started := by
  unfold pushUpdate
  split_ifs <;> rfl

theorem extendUpdate_started (s : SessionState) (now : Nat) :
    (extendUpdate s now).stats.started = s.stats.started := by
  unfold extendUpdate
  split_ifs <;> rfl

theorem finishUpdate_started (s : SessionState) (now : Nat) :
    (finishUpdate s now).stats.started = s.stats.started := by
  unfold finishUpdate Stats.stop
  split_ifs <;> rfl

theorem backspaceUpdate_started (s : SessionState) :
    (backspaceUpdate s).stats.started = s.stats.started := by
  unfold backspaceUpdate
  split_ifs with h1
  · rfl
  · dsimp only
    split_ifs <;> rfl

/-- Counterexample to claim C6 as stated: a space — precisely the character
the claim includes via the enter-to-space mapping — typed in the Idle state
does NOT set `started`: the source guards `stats.start()` with
`ch.strip() != ""`, which is false for a space.  After a space event on a
fresh session, `started` is still unset. -/
theorem started_space_counterexample :
    (typingSessionStep (initSession cfgWordsEx ("abX".toList))
        (Event.printable ' ' 5)).stats.started = none := by
  decide

/-- Claim C6 amended: a NON-SPACE printable character applied while the
session is unfinished and `started` is unset sets `started` to the event
time (the session is then Running); a space (including the one produced by
mapping enter) leaves `started` unset; and once `started` is set, no later
event of any kind ever changes it. -/
theorem started_set_and_stable :
    (∀ (s : SessionState) (c : Char) (now : Nat),
        s.done = false → s.stats.started = none → c ≠ ' ' →
        (typingSessionStep s (Event.printable c now)).stats.started = some now) ∧
    (∀ (s : SessionState) (e : Event) (t : Nat),
        s.stats.started = some t →
        (typingSessionStep s e).stats.started = some t) := by
  constructor
  · intro s c now hdone hnone hc
    simp only [typingSessionStep, hdone, Bool.false_eq_true, if_false]
    rw [finishUpdate_started, extendUpdate_started, pushUpdate_started]
    exact startUpdate_started_none s c now hnone hc
  · intro s e t h
    cases e with
    | printable c now =>
      simp only [typingSessionStep]
      split_ifs
      · exact h
      · rw [finishUpdate_started, extendUpdate_started, pushUpdate_started]
        exact startUpdate_started_some s c now t h
    | backspace now =>
      simp only [typingSessionStep]
      split_ifs
      · exact h
      · rw [backspaceUpdate_started]
        exact h
    | backspaceKey now =>
      simp only [typingSessionStep]
      split_ifs
      · exact h
      · rw [finishUpdate_started, backspaceUpdate_started]
        exact h
    | quit now =>
      simp only [typingSessionStep]
      split_ifs
      · exact h
      · show (s.stats.stop now).started = some t
        unfold Stats.stop
        split_ifs <;> exact h

/-- Witness for C6: a concrete non-space first keystroke sets the clock,
and a later event leaves it unchanged. -/
theorem started_set_and_stable_witness :
    (typingSessionStep (initSession cfgWordsEx ("abX".toList))
        (Event.printable 'a' 7)).stats.started = some 7 ∧
    (typingSessionStep (typingSessionStep (initSession cfgWordsEx ("abX".toList))
        (Event.printable 'a' 7)) (Event.printable 'b' 9)).stats.started = some 7 :=
  ⟨started_set_and_stable.1 (initSession cfgWordsEx ("abX".toList)) 'a' 7 rfl rfl
      (by decide),
    started_set_and_stable.2
      (typingSessionStep (initSession cfgWordsEx ("abX".toList))
        (Event.printable 'a' 7)) (Event.printable 'b' 9) 7
      (started_set_and_stable.1 (initSession cfgWordsEx ("abX".toList)) 'a' 7 rfl rfl
        (by decide))⟩

/-! ## Word-source determinism -/

/-- Claim C9: with a fixed configured seed, two `WordSource` instances
built from the same configuration — even under different ambient entropy,
i.e. in two different runs — produce identical `generate n` results for
every `n`, and `generate 0` returns the empty sequence without error. -/
theorem wordsource_deterministic (cfg : Config) (sd : Int) (e1 e2 : Nat) (n : Nat)
    (h : cfg.seed = some sd) :
    (mkWordSource e1 cfg).generate n = (mkWordSource e2 cfg).generate n ∧
    ((mkWordSource e1 cfg).generate 0).1 = [] := by
  have hsame : mkWordSource e1 cfg = mkWordSource e2 cfg := by
    simp [mkWordSource, PRNG.ofSeed, h]
  exact ⟨by rw [hsame], rfl⟩

/-- Witness for C9 at the §8 scenario configuration (seed 1, five words). -/
theorem wordsource_deterministic_witness :
    (mkWordSource 0 cfgWordsEx).generate 5 = (mkWordSource 99 cfgWordsEx).generate 5 ∧
    ((mkWordSource 0 cfgWordsEx).generate 0).1 = [] :=
  wordsource_deterministic cfgWordsEx 1 0 99 5 rfl

/-! ## Time-mode buffer extension -/

theorem finishedAt_time_not_elapsed (s : SessionState) (now : Nat)
    (hmode : s.cfg.mode = Mode.time) (hended : s.stats.ended = none)
    (hst : match s.stats.started with
      | none => True
      | some t => now - t < s.cfg.seconds) :
    finishedAt s now = false := by
  unfold finishedAt
  rw [hmode]
  cases hcase : s.stats.started with
  | none => simp [hcase]
  | some t =>
    rw [hcase] at hst
    simp only [hcase, Option.isSome_some, Bool.true_and]
    unfold Stats.seconds_elapsed
    rw [hcase, hended]
    simp only [Option.getD_none]
    rw [decide_eq_false_iff_not]
    omega

/-- Claim C10: in time mode, when a printable keystroke brings the typed
length to the end of the target text and the session is not finished by
elapsed time, the target text is extended by appending a space plus the
join of 50 words drawn from a freshly constructed `WordSource` seeded from
the same configuration; with a fixed seed the appended chunk is therefore
identical at every extension point (the first 50 draws of a fresh
generator), independent of the ambient entropy — not a continuation of the
original word stream. -/
theorem time_mode_extension (s : SessionState) (c : Char) (now : Nat)
    (hdone : s.done = false)
    (hmode : s.cfg.mode = Mode.time)
    (hlen : s.typedLog.length + 1 = s.text.length)
    (hended : s.stats.ended = none)
    (htime : match s.stats.started with
      | none => 0 < s.cfg.seconds
      | some t => now - t < s.cfg.seconds) :
    (typingSessionStep s (Event.printable c now)).text =
        s.text ++ extChunk now s.cfg ∧
    (∀ (cfg : Config) (sd : Int) (e1 e2 : Nat), cfg.seed = some sd →
        extChunk e1 cfg = extChunk e2 cfg) := by
  constructor
  · have hroom : s.typedLog.length < s.text.length := by omega
    obtain ⟨hA1, hA2, hA3, hA4⟩ := startUpdate_facts s c now
    obtain ⟨hS1, hS2, hS3, hS4⟩ := startUpdate_stats s c now
    set sA := startUpdate s c now with hsA
    have hroomA : sA.typedLog.length < sA.text.length := by
      rw [hA2, hA3]
      exact hroom
    obtain ⟨hB1, hB2, hB3, hB4⟩ := pushUpdate_lt sA c hroomA
    obtain ⟨hT1, hT2, hT3, hT4, hT5⟩ := pushUpdate_stats_lt sA c hroomA
    set sB := pushUpdate sA c with hsB
    have hcfgB : sB.cfg = s.cfg := by
      rw [hB1, hA1]
    have hendB : sB.stats.ended = none := by
      rw [hT5, hS4, hended]
    have hlenB : sB.text.length ≤ sB.typedLog.length := by
      rw [hB2, hA2, hB3, hA3, List.length_append, List.length_cons, List.length_nil]
      omega
    have hfinB : finishedAt sB now = false := by
      apply finishedAt_time_not_elapsed sB now (by rw [hcfgB]; exact hmode) hendB
      rw [hT4]
      show match (startUpdate s c now).stats.started with
        | none => True
        | some t => now - t < sB.cfg.seconds
      unfold startUpdate Stats.start
      split_ifs with hc hnone
      · show now - now < sB.cfg.seconds
        rw [hcfgB, Nat.sub_self]
        rw [hnone] at htime
        exact htime
      · show match s.stats.started with
          | none => True
          | some t => now - t < sB.cfg.seconds
        rcases hs0 : s.stats.started with _ | t
        · trivial
        · rw [hs0] at htime
          rw [hcfgB]
          exact htime
      · show match s.stats.started with
          | none => True
          | some t => now - t < sB.cfg.seconds
        rcases hs0 : s.stats.started with _ | t
        · trivial
        · rw [hs0] at htime
          rw [hcfgB]
          exact htime
    have hstep : typingSessionStep s (Event.printable c now) =
        finishUpdate (extendUpdate sB now) now := by
      simp only [typingSessionStep, hdone, Bool.false_eq_true, if_false, hsB, hsA]
    rw [hstep, finishUpdate_text,
      extendUpdate_pos sB now ⟨by rw [hcfgB]; exact hmode, hlenB, hfinB⟩]
    show sB.text ++ extChunk now sB.cfg = s.text ++ extChunk now s.cfg
    rw [hB2, hA2, hcfgB]
  · intro cfg sd e1 e2 h
    unfold extChunk
    have hsame : mkWordSource e1 cfg = mkWordSource e2 cfg := by
      simp [mkWordSource, PRNG.ofSeed, h]
    rw [hsame]

/-- Witness for C10: a time-mode session whose one-character target is
reached by the first keystroke; the buffer is extended by the
configuration-determined chunk, and the chunk is entropy-independent. -/
theorem time_mode_extension_witness :
    (typingSessionStep (initSession cfgTimeEx ("a".toList))
        (Event.printable 'x' 3)).text = "a".toList ++ extChunk 3 cfgTimeEx ∧
    extChunk 0 cfgTimeEx = extChunk 9 cfgTimeEx :=
  ⟨(time_mode_extension (initSession cfgTimeEx ("a".toList)) 'x' 3 rfl rfl
      (by decide) rfl (show (0 : Nat) < 60 by decide)).1,
    (time_mode_extension (initSession cfgTimeEx ("a".toList)) 'x' 3 rfl rfl
      (by decide) rfl (show (0 : Nat) < 60 by decide)).2 cfgTimeEx 1 0 9 rfl⟩

end CliTyper
